import Mathlib

/-!
Verification of the migration management subsystem
(MigrationManager and the abstract Migration base class).

The embedding models:
* the dotted-version comparator (compareVersions),
* discovery and sorting of migration units (loadMigrations),
* the per-unit transaction batch executor (executeBatch) over an abstract
  database collaborator with explicit BEGIN / COMMIT / ROLLBACK semantics,
* the ledger state (migrations table) with validate / recordMigration /
  removeMigrationRecord,
* the manager operations applyMigrations / rollbackMigration,
* the checksum generator (JSON serialization of the four identity fields,
  hashed by an abstract cryptographic hash).

External collaborators (the PostgreSQL engine executing schema statements,
and the sha256 implementation) are abstracted as parameters; everything else
is translated directly from the source.
-/

/-! ### Dotted-version comparator -/

/-- Splitting a character list on the dot character: the model of the
JavaScript split on a dot used by compareVersions. An empty input yields one
empty segment, matching JS. -/
def splitDots : List Char → List (List Char)
  | [] => [[]]
  | c :: cs =>
    if c = '.' then [] :: splitDots cs
    else
      match splitDots cs with
      | [] => [[c]]
      | s :: ss => (c :: s) :: ss

/-- Decimal value of a digit list (most significant first). -/
def digitsVal (cs : List Char) : Nat :=
  cs.foldl (fun acc c => 10 * acc + (c.toNat - 48)) 0

/-- Numeric value of one version segment: the model of the JavaScript
Number conversion with the or-zero collapse applied to a segment. On a
segment made of decimal digits it is the decimal value; the empty segment
gives 0 (as Number of the empty string does); any non-numeric segment
collapses to 0 (as NaN-or-zero does). -/
def segNum (cs : List Char) : Nat :=
  if cs.all Char.isDigit then digitsVal cs else 0

/-- The parsed segment list of a version string: split on dots, then map
each segment through the numeric conversion. -/
def segments (s : String) : List Nat :=
  (splitDots s.data).map segNum

/-- The comparison loop of MigrationManager.compareVersions: index i walks
from 0 below the maximum of the two segment counts (given here as fuel),
each absent segment reads as 0, and the first unequal pair of segments
decides the result as their difference. -/
def cmpLoop (partsA partsB : List Nat) (i : Nat) : Nat → Int
  | 0 => 0
  | fuel + 1 =>
    let numA := (partsA.getD i 0 : Nat)
    let numB := (partsB.getD i 0 : Nat)
    if numA ≠ numB then (numA : Int) - (numB : Int)
    else cmpLoop partsA partsB (i + 1) fuel

/-- MigrationManager.compareVersions: split both version strings on dots,
parse the segments, and compare them index by index, absent segments
reading as 0; negative result means the first version is lower. -/
def compareVersions (a b : String) : Int :=
  let partsA := segments a
  let partsB := segments b
  cmpLoop partsA partsB 0 (max partsA.length partsB.length)

/-- Specification-side comparator on parsed segment lists: compare segment
by segment from the left, an absent segment counting as 0, the first
unequal pair deciding the order. -/
def cmpSegs : List Nat → List Nat → Ordering
  | [], [] => .eq
  | [], b :: bs => if 0 < b then .lt else cmpSegs [] bs
  | a :: as, [] => if 0 < a then .gt else cmpSegs as []
  | a :: as, b :: bs =>
    if a < b then .lt else if b < a then .gt else cmpSegs as bs
termination_by x y => x.length + y.length

/-- Plain left-to-right lexicographic comparison of segment lists (used on
zero-padded lists of equal length). -/
def lexCmp : List Nat → List Nat → Ordering
  | [], [] => .eq
  | [], _ :: _ => .lt
  | _ :: _, [] => .gt
  | a :: as, b :: bs =>
    if a < b then .lt else if b < a then .gt else lexCmp as bs

/-- Pad a segment list with zeros on the right up to length m. -/
def padTo (m : Nat) (l : List Nat) : List Nat :=
  l ++ List.replicate (m - l.length) 0

/-- A version string every segment of which is a nonempty run of decimal
digits (a dot-separated numeric version string). -/
def numericVersion (s : String) : Bool :=
  (splitDots s.data).all fun seg => !seg.isEmpty && seg.all Char.isDigit

/-! ### Migration units (MigrationMeta and the Migration base class) -/

/-- The MigrationMeta interface: identity and metadata of one migration.
An absent dependencies field is modelled as the empty list, matching the
or-empty default applied where the field is consumed. -/
structure MigrationMeta where
  id : String
  name : String
  description : String
  version : String
  dependencies : List String
deriving DecidableEq

/-- A migration unit: its metadata together with its forward and backward
statement sequences (the concrete subclasses pass these to executeBatch). -/
structure Migration where
  meta : MigrationMeta
  upQueries : List String
  downQueries : List String
deriving DecidableEq

/-! ### The database collaborator and transaction semantics -/

/-- The external database engine, abstracted: running one (non-transaction-
control) SQL statement either transforms the schema state or fails. -/
structure DBModel (σ : Type) where
  run : String → σ → Option σ

/-- A pooled client connection: the last committed schema state, plus the
working state of an open transaction when one is active. -/
structure TxnState (σ : Type) where
  committed : σ
  working : Option σ
deriving DecidableEq

/-- Is the statement one of the three transaction-control statements that
executeBatch itself issues? -/
def isControlStmt (q : String) : Bool :=
  q == "BEGIN" || q == "COMMIT" || q == "ROLLBACK"

/-- One client.query call. BEGIN opens a transaction whose working state
starts from the committed state; COMMIT publishes the working state;
ROLLBACK discards it; any other statement runs against the working state
inside a transaction (or auto-commits outside one), failing if the engine
fails. The Bool is false exactly when the statement raised an error. -/
def clientQuery {σ : Type} (db : DBModel σ) (q : String) (t : TxnState σ) :
    TxnState σ × Bool :=
  if q = "BEGIN" then ({ t with working := some t.committed }, true)
  else if q = "COMMIT" then
    match t.working with
    | some w => ({ committed := w, working := none }, true)
    | none => (t, true)
  else if q = "ROLLBACK" then ({ t with working := none }, true)
  else
    match t.working with
    | some w =>
      match db.run q w with
      | some w2 => ({ t with working := some w2 }, true)
      | none => (t, false)
    | none =>
      match db.run q t.committed with
      | some c2 => ({ committed := c2, working := none }, true)
      | none => (t, false)

/-- The statement loop inside Migration.executeBatch: run the queries one
after another on the client, stopping at the first failure and reporting
the failing statement. -/
def execQueries {σ : Type} (db : DBModel σ) :
    List String → TxnState σ → TxnState σ × Option String
  | [], t => (t, none)
  | q :: qs, t =>
    match clientQuery db q t with
    | (t2, true) => execQueries db qs t2
    | (t2, false) => (t2, some q)

/-- Migration.executeBatch: connect a client, BEGIN, run the statement
sequence, COMMIT on success; on any failure ROLLBACK and re-raise the
error (reported here as the failing statement). Returns the committed
schema state after the batch. -/
def executeBatch {σ : Type} (db : DBModel σ) (queries : List String) (s : σ) :
    σ × Option String :=
  let t0 : TxnState σ := { committed := s, working := none }
  let t1 := (clientQuery db ("BEGIN") t0).1
  match execQueries db queries t1 with
  | (t2, none) =>
    let t3 := (clientQuery db ("COMMIT") t2).1
    (t3.committed, none)
  | (t2, some q) =>
    let t3 := (clientQuery db ("ROLLBACK") t2).1
    (t3.committed, some q)

/-- Specification-side sequential semantics of a statement list: apply the
statements one after another, failing if any statement fails. -/
def runAll {σ : Type} (db : DBModel σ) : List String → σ → Option σ
  | [], s => some s
  | q :: qs, s =>
    match db.run q s with
    | some s2 => runAll db qs s2
    | none => none

/-! ### The ledger (migrations table) -/

/-- One row of the migrations ledger table. The metadata JSONB payload
holds the description and the dependency list. -/
structure LedgerRow where
  id : String
  name : String
  version : String
  appliedAt : Nat
  checksum : String
  metaDescription : String
  metaDependencies : List String
deriving DecidableEq

/-- The database state seen by the migration subsystem: whether the ledger
table exists, its rows, the abstract schema state mutated by up and down
batches, and a logical clock stamping applied_at. -/
structure PgState (σ : Type) where
  ledgerExists : Bool
  ledger : List LedgerRow
  schema : σ
  clock : Nat
deriving DecidableEq

/-- Fault injection for the three ledger queries issued by validate: the
table-existence check, the create-table batch, and the select-by-id. -/
structure ValidateFaults where
  tableCheck : Bool
  createTable : Bool
  selectId : Bool
deriving DecidableEq

/-- No injected faults: every ledger query succeeds. -/
def noFaults : ValidateFaults := ⟨false, false, false⟩

/-- The body of Migration.validate before its catch clause: check whether
the migrations table exists, create it (with its indexes) if missing, then
select the ledger row with this unit's id; the result is true when no such
row exists. Each step may raise (per the injected faults), in which case
the side effects already performed persist (each pool query auto-commits). -/
def validateTry {σ : Type} (meta : MigrationMeta) (e : ValidateFaults)
    (s : PgState σ) : PgState σ × Except Unit Bool :=
  if e.tableCheck then (s, .error ()) else
  if s.ledgerExists then
    if e.selectId then (s, .error ())
    else (s, .ok (((s.ledger.filter fun r => r.id == meta.id).length) == 0))
  else
    if e.createTable then (s, .error ())
    else
      let s1 : PgState σ := { s with ledgerExists := true, ledger := [] }
      if e.selectId then (s1, .error ())
      else (s1, .ok (((s1.ledger.filter fun r => r.id == meta.id).length) == 0))

/-- Migration.validate: the try body above with the catch clause that
converts any raised error into the answer false (fail closed). -/
def validate {σ : Type} (meta : MigrationMeta) (e : ValidateFaults)
    (s : PgState σ) : PgState σ × Bool :=
  match validateTry meta e s with
  | (s1, .ok b) => (s1, b)
  | (s1, .error _) => (s1, false)

/-- Migration.recordMigration: insert one ledger row carrying the unit's
identity fields, the checksum, the metadata payload, and the insertion
timestamp. -/
def recordMigration {σ : Type} (m : Migration) (checksum : String)
    (s : PgState σ) : PgState σ :=
  { s with
    ledger := s.ledger ++
      [{ id := m.meta.id, name := m.meta.name, version := m.meta.version,
         appliedAt := s.clock, checksum := checksum,
         metaDescription := m.meta.description,
         metaDependencies := m.meta.dependencies }],
    clock := s.clock + 1 }

/-- Migration.removeMigrationRecord: delete the ledger rows whose id equals
this unit's id. -/
def removeMigrationRecord {σ : Type} (m : Migration) (s : PgState σ) :
    PgState σ :=
  { s with ledger := s.ledger.filter fun r => !(r.id == m.meta.id) }

/-! ### Checksum generation -/

/-- Lowercase hexadecimal digit, as the JSON serializer prints it. -/
def hexDig (n : Nat) : Char :=
  if n < 10 then Char.ofNat (48 + n) else Char.ofNat (87 + n)

/-- JSON string escaping of one character, as JSON.stringify performs it:
quote and backslash get a backslash escape, the five named control
characters get their short escapes, any other control character below
0x20 gets a four-hex-digit unicode escape, and everything else is emitted
verbatim. -/
def jsonEscapeChar (c : Char) : List Char :=
  if c = Char.ofNat 34 then [Char.ofNat 92, Char.ofNat 34]
  else if c = Char.ofNat 92 then [Char.ofNat 92, Char.ofNat 92]
  else if c = Char.ofNat 8 then [Char.ofNat 92, 'b']
  else if c = Char.ofNat 9 then [Char.ofNat 92, 't']
  else if c = Char.ofNat 10 then [Char.ofNat 92, 'n']
  else if c = Char.ofNat 12 then [Char.ofNat 92, 'f']
  else if c = Char.ofNat 13 then [Char.ofNat 92, 'r']
  else if c.toNat < 32 then
    [Char.ofNat 92, 'u', '0', '0', hexDig (c.toNat / 16), hexDig (c.toNat % 16)]
  else [c]

/-- JSON escaping of a character list. -/
def escapeList : List Char → List Char
  | [] => []
  | c :: cs => jsonEscapeChar c ++ escapeList cs

/-- A JSON string literal: the escaped contents between two quotes. -/
def jsonStringChars (s : String) : List Char :=
  Char.ofNat 34 :: escapeList s.data ++ [Char.ofNat 34]

/-- One key-value member of a JSON object. -/
def jsonMember (k v : String) : List Char :=
  jsonStringChars k ++ ':' :: jsonStringChars v

/-- The serialized content hashed by generateChecksum: the JSON
serialization of the object holding the four identity fields, in the
insertion order id, name, version, description. -/
def migrationContent (meta : MigrationMeta) : String :=
  String.mk (Char.ofNat 123 ::
    (jsonMember ("id") meta.id ++ ',' ::
     jsonMember ("name") meta.name ++ ',' ::
     jsonMember ("version") meta.version ++ ',' ::
     jsonMember ("description") meta.description) ++ [Char.ofNat 125])

/-- MigrationManager.generateChecksum: hash the serialized identity fields
with the cryptographic hash (sha256 hex digest), abstracted as a parameter. -/
def generateChecksum {σh : Type} (hash : String → σh) (m : Migration) : σh :=
  hash (migrationContent m.meta)

/-! ### Inverse JSON escaping (proof vehicle for checksum sensitivity) -/

/-- Value of a lowercase hexadecimal digit. -/
def hexVal (c : Char) : Nat :=
  if c.toNat ≤ 57 then c.toNat - 48 else c.toNat - 87

/-- Inverse of the short backslash escapes. -/
def unescCode (d : Char) : Char :=
  if d = 'b' then Char.ofNat 8
  else if d = 't' then Char.ofNat 9
  else if d = 'n' then Char.ofNat 10
  else if d = 'f' then Char.ofNat 12
  else if d = 'r' then Char.ofNat 13
  else d

/-- Decoder for the JSON escaping above; total inverse on escaper output. -/
def unescape : List Char → Option (List Char)
  | [] => some []
  | c :: rest =>
    if c ≠ Char.ofNat 92 then (unescape rest).map fun l => c :: l
    else
      match rest with
      | [] => none
      | 'u' :: '0' :: '0' :: h2 :: h3 :: rest3 =>
        (unescape rest3).map fun l => Char.ofNat (16 * hexVal h2 + hexVal h3) :: l
      | d :: rest2 =>
        if d = 'u' then none
        else (unescape rest2).map fun l => unescCode d :: l
termination_by l => l.length

/-! ### The MigrationManager -/

/-- The outcome of applyMigrations: the final database state, the error
that halted the batch (if any), the ids of the units visited by the loop
in order, and the ids of the units whose up batch was actually invoked. -/
structure ApplyResult (σ : Type) where
  state : PgState σ
  error : Option String
  visited : List String
  applied : List String
deriving DecidableEq

/-- MigrationManager.applyMigrations: walk the loaded units in list order;
for each, ask validate whether it can be applied; if so compute the
checksum, run the up batch, and record the ledger row; any error thrown by
a unit halts the loop and propagates. -/
def applyMigrations {σ : Type} (db : DBModel σ) (hash : String → String) :
    List Migration → PgState σ → ApplyResult σ
  | [], s => ⟨s, none, [], []⟩
  | m :: rest, s =>
    match validate m.meta noFaults s with
    | (s1, true) =>
      let checksum := generateChecksum hash m
      match executeBatch db m.upQueries s1.schema with
      | (sch, some e) =>
        ⟨{ s1 with schema := sch }, some e, [m.meta.id], [m.meta.id]⟩
      | (sch, none) =>
        let s2 := recordMigration m checksum { s1 with schema := sch }
        let r := applyMigrations db hash rest s2
        ⟨r.state, r.error, m.meta.id :: r.visited, m.meta.id :: r.applied⟩
    | (s1, false) =>
      let r := applyMigrations db hash rest s1
      ⟨r.state, r.error, m.meta.id :: r.visited, r.applied⟩

/-- Database interactions performed by rollbackMigration, in order. -/
inductive DbEvent
  | downExec (queries : List String)
  | deleteRecord (id : String)
deriving DecidableEq

/-- The outcome of rollbackMigration: final state, propagated error, and
the database interactions that were performed. -/
structure RollbackResult (σ : Type) where
  state : PgState σ
  error : Option String
  events : List DbEvent
deriving DecidableEq

/-- MigrationManager.rollbackMigration: find the loaded unit whose version
equals the argument; if none, fail with a not-found error before touching
the database; otherwise run the unit's down batch and then delete its
ledger row, propagating any error. -/
def rollbackMigration {σ : Type} (db : DBModel σ) (migrations : List Migration)
    (version : String) (s : PgState σ) : RollbackResult σ :=
  match migrations.find? fun m => m.meta.version == version with
  | none => ⟨s, some ("Migration version " ++ version ++ " not found"), []⟩
  | some m =>
    match executeBatch db m.downQueries s.schema with
    | (sch, some e) =>
      ⟨{ s with schema := sch }, some e, [.downExec m.downQueries]⟩
    | (sch, none) =>
      ⟨removeMigrationRecord m { s with schema := sch }, none,
        [.downExec m.downQueries, .deleteRecord m.meta.id]⟩

/-- The non-strict order in which loadMigrations sorts units: the version
comparator reports the first not above the second. -/
def migLE (u v : Migration) : Prop :=
  compareVersions u.meta.version v.meta.version ≤ 0

instance : DecidableRel migLE := fun u v =>
  inferInstanceAs (Decidable (compareVersions u.meta.version v.meta.version ≤ 0))

/-- Does the file name end with the given extension (model of the string
suffix test applied to directory entries)? -/
def fileEndsWith (fname ext : String) : Bool :=
  ext.data.isSuffixOf fname.data

/-- MigrationManager.loadMigrations: take the directory listing (file name
paired with the unit its default export constructs), keep the .ts and .js
entries, and sort the constructed units by the version comparator. The
list sort is modelled by insertion sort, a comparator-consistent stable
sort, which is what the runtime's sort guarantees for this comparator. -/
def loadMigrations (files : List (String × Migration)) : List Migration :=
  List.insertionSort migLE
    ((files.filter fun f =>
      fileEndsWith f.1 (".ts") || fileEndsWith f.1 (".js")).map Prod.snd)

/-! ### Concrete fixtures used by the witness theorems -/

/-- A concrete database engine on Nat schema states: the statement boom
always fails, every other statement increments the schema counter. -/
def db0 : DBModel Nat :=
  ⟨fun q n => if q == "boom" then none else some (n + 1)⟩

/-- The identity hash, an injective stand-in for sha256 in witnesses. -/
def hashId : String → String := fun s => s

/-- An empty initial database state (no ledger table yet). -/
def s0 : PgState Nat := ⟨false, [], 0, 0⟩

/-- A database state in which the ledger table already exists and is empty. -/
def sTable : PgState Nat := ⟨true, [], 0, 0⟩

/-- Sample migration A, version 1.0.0. -/
def migA : Migration :=
  ⟨⟨"001_a", "A", "first", "1.0.0", []⟩, ["a_up"], ["a_down"]⟩

/-- Sample migration B, version 1.1.0, whose up batch fails. -/
def migB : Migration :=
  ⟨⟨"002_b", "B", "second", "1.1.0", ["001_a"]⟩, ["b_up", "boom"], ["b_down"]⟩

/-- Sample migration C, version 1.2.0. -/
def migC : Migration :=
  ⟨⟨"003_c", "C", "third", "1.2.0", []⟩, ["c_up"], ["c_down"]⟩

/-- Sample migration sharing every identity field with A but declaring
different dependencies (they do not enter the checksum). -/
def migA2 : Migration :=
  ⟨⟨"001_a", "A", "first", "1.0.0", ["000_z"]⟩, ["a_up"], ["a_down"]⟩

/-- Sample migration differing from A only in a whitespace character of
the description. -/
def migAws : Migration :=
  ⟨⟨"001_a", "A", "first\n", "1.0.0", []⟩, ["a_up"], ["a_down"]⟩

/-- A sample discovered directory listing: two loadable units out of
version order plus one non-module file that the filter must drop. -/
def files0 : List (String × Migration) :=
  [("003_c.ts", migC), ("note.txt", migB), ("001_a.js", migA)]

/-- A concrete ledger row for unit A. -/
def rowA : LedgerRow := ⟨"001_a", "A", "1.0.0", 0, "ck_a", "first", []⟩

/-- A concrete ledger row for unit C. -/
def rowC : LedgerRow := ⟨"003_c", "C", "1.2.0", 1, "ck_c", "third", []⟩

/-- A database state whose ledger holds the rows for A and C. -/
def sLedger2 : PgState Nat := ⟨true, [rowA, rowC], 1, 2⟩

/-! ### Comparator theory -/

theorem lexCmp_self (l : List Nat) : lexCmp l l = .eq := by
  induction l with
  | nil => rfl
  | cons a as ih => simp [lexCmp, Nat.lt_irrefl, ih]

theorem padTo_nil (m : Nat) : padTo m [] = List.replicate m 0 := by
  simp [padTo]

theorem padTo_succ_cons (m a : Nat) (l : List Nat) :
    padTo (m + 1) (a :: l) = a :: padTo m l := by
  simp [padTo, List.replicate]

theorem padTo_succ_nil (m : Nat) : padTo (m + 1) [] = 0 :: padTo m [] := by
  simp [padTo, List.replicate]

theorem cmpSegs_padTo (m : Nat) (x y : List Nat)
    (hx : x.length ≤ m) (hy : y.length ≤ m) :
    cmpSegs x y = lexCmp (padTo m x) (padTo m y) := by
  induction m generalizing x y with
  | zero =>
    have hx0 : x = [] := List.eq_nil_of_length_eq_zero (Nat.le_zero.mp hx)
    have hy0 : y = [] := List.eq_nil_of_length_eq_zero (Nat.le_zero.mp hy)
    subst hx0; subst hy0
    simp [cmpSegs, padTo, lexCmp]
  | succ m ih =>
    match x, y with
    | [], [] =>
      simp [cmpSegs, padTo_nil, lexCmp_self]
    | [], b :: bs =>
      rw [padTo_succ_nil, padTo_succ_cons]
      by_cases hb : 0 < b
      · simp [cmpSegs, lexCmp, hb]
      · have hb0 : b = 0 := by omega
        subst hb0
        simp only [cmpSegs, lexCmp, Nat.lt_irrefl, if_false]
        exact ih [] bs (by simp) (by simpa using Nat.le_of_succ_le_succ hy)
    | a :: as, [] =>
      rw [padTo_succ_nil, padTo_succ_cons]
      by_cases ha : 0 < a
      · simp [cmpSegs, lexCmp, ha, Nat.not_lt_of_lt ha]
      · have ha0 : a = 0 := by omega
        subst ha0
        simp only [cmpSegs, lexCmp, Nat.lt_irrefl, if_false]
        exact ih as [] (by simpa using Nat.le_of_succ_le_succ hx) (by simp)
    | a :: as, b :: bs =>
      rw [padTo_succ_cons, padTo_succ_cons]
      by_cases hab : a < b
      · simp [cmpSegs, lexCmp, hab]
      · by_cases hba : b < a
        · simp [cmpSegs, lexCmp, hab, hba]
        · simp only [cmpSegs, lexCmp, hab, hba, if_false]
          exact ih as bs (by simpa using Nat.le_of_succ_le_succ hx)
            (by simpa using Nat.le_of_succ_le_succ hy)

theorem lexCmp_trans (x : List Nat) : ∀ y z : List Nat,
    lexCmp x y ≠ .gt → lexCmp y z ≠ .gt → lexCmp x z ≠ .gt := by
  induction x with
  | nil =>
    intro y z _ _
    match z with
    | [] => simp [lexCmp]
    | c :: cs => simp [lexCmp]
  | cons a as ih =>
    intro y z h1 h2
    match y, z with
    | [], _ => simp [lexCmp] at h1
    | b :: bs, [] => simp [lexCmp] at h2
    | b :: bs, c :: cs =>
      simp only [lexCmp] at h1 h2 ⊢
      by_cases hba : b < a
      · simp [hba, Nat.not_lt_of_lt hba] at h1
      · by_cases hcb : c < b
        · simp [hcb, Nat.not_lt_of_lt hcb] at h2
        · by_cases hac : a < c
          · simp [hac]
          · have hca : c = a := by omega
            have hba2 : b = a := by omega
            subst hca; subst hba2
            simp only [Nat.lt_irrefl, if_false] at h1 h2 ⊢
            exact ih bs cs h1 h2

theorem cmpSegs_swap (x y : List Nat) : cmpSegs y x = (cmpSegs x y).swap := by
  induction x, y using cmpSegs.induct <;>
    simp_all [cmpSegs, Ordering.swap]
  case case6 a as b bs h =>
    exact Nat.le_of_lt h
  case case7 a as b bs h1 h2 =>
    simp [h2, Nat.lt_asymm h2]
  case case8 a as b bs h1 h2 ih =>
    have h3 : a = b := Nat.le_antisymm h2 h1
    subst h3
    simp [Nat.lt_irrefl]

theorem cmpSegs_le_trans (x y z : List Nat)
    (h1 : cmpSegs x y ≠ .gt) (h2 : cmpSegs y z ≠ .gt) : cmpSegs x z ≠ .gt := by
  have hm1 : x.length ≤ max x.length (max y.length z.length) := le_max_left _ _
  have hm2 : y.length ≤ max x.length (max y.length z.length) :=
    le_trans (le_max_left _ _) (le_max_right _ _)
  have hm3 : z.length ≤ max x.length (max y.length z.length) :=
    le_trans (le_max_right _ _) (le_max_right _ _)
  rw [cmpSegs_padTo _ x y hm1 hm2] at h1
  rw [cmpSegs_padTo _ y z hm2 hm3] at h2
  rw [cmpSegs_padTo _ x z hm1 hm3]
  exact lexCmp_trans _ _ _ h1 h2

theorem getD_succ_tail (l : List Nat) (i : Nat) :
    l.getD (i + 1) 0 = l.tail.getD i 0 := by
  cases l <;> simp

theorem cmpLoop_succ (partsA partsB : List Nat) (i fuel : Nat) :
    cmpLoop partsA partsB (i + 1) fuel = cmpLoop partsA.tail partsB.tail i fuel := by
  induction fuel generalizing i with
  | zero => rfl
  | succ fuel ih =>
    simp only [cmpLoop, getD_succ_tail]
    rw [ih]

theorem cmpLoop_spec (fuel : Nat) : ∀ partsA partsB : List Nat,
    partsA.length ≤ fuel → partsB.length ≤ fuel →
    match cmpSegs partsA partsB with
    | .lt => cmpLoop partsA partsB 0 fuel < 0
    | .eq => cmpLoop partsA partsB 0 fuel = 0
    | .gt => 0 < cmpLoop partsA partsB 0 fuel := by
  induction fuel with
  | zero =>
    intro pA pB hA hB
    have h1 : pA = [] := List.eq_nil_of_length_eq_zero (Nat.le_zero.mp hA)
    have h2 : pB = [] := List.eq_nil_of_length_eq_zero (Nat.le_zero.mp hB)
    subst h1; subst h2
    simp [cmpSegs, cmpLoop]
  | succ fuel ih =>
    intro pA pB hA hB
    match pA, pB with
    | [], [] =>
      have := ih [] [] (by simp) (by simp)
      simp only [cmpSegs] at this ⊢
      simp only [cmpLoop, List.getD_nil, ne_eq, not_true_eq_false, if_neg,
        not_false_eq_true, if_false]
      simpa [cmpLoop_succ] using this
    | [], b :: bs =>
      by_cases hb : 0 < b
      · have hcs : cmpSegs [] (b :: bs) = .lt := by simp [cmpSegs, hb]
        rw [hcs]
        simp only [cmpLoop, List.getD_nil, List.getD_cons_zero]
        have hne : (0 : Nat) ≠ b := by omega
        simp only [ne_eq, hne, not_false_eq_true, if_true, if_pos]
        omega
      · have hb0 : b = 0 := by omega
        subst hb0
        have hcs : cmpSegs [] (0 :: bs) = cmpSegs [] bs := by
          simp [cmpSegs]
        rw [hcs]
        have := ih [] bs (by simp) (by simpa using Nat.le_of_succ_le_succ hB)
        simp only [cmpLoop, List.getD_nil, List.getD_cons_zero, ne_eq,
          not_true_eq_false, if_false, not_false_eq_true]
        simpa [cmpLoop_succ] using this
    | a :: as, [] =>
      by_cases ha : 0 < a
      · have hcs : cmpSegs (a :: as) [] = .gt := by simp [cmpSegs, ha]
        rw [hcs]
        simp only [cmpLoop, List.getD_nil, List.getD_cons_zero]
        have hne : a ≠ (0 : Nat) := by omega
        simp only [ne_eq, hne, not_false_eq_true, if_pos]
        omega
      · have ha0 : a = 0 := by omega
        subst ha0
        have hcs : cmpSegs (0 :: as) [] = cmpSegs as [] := by
          simp [cmpSegs]
        rw [hcs]
        have := ih as [] (by simpa using Nat.le_of_succ_le_succ hA) (by simp)
        simp only [cmpLoop, List.getD_nil, List.getD_cons_zero, ne_eq,
          not_true_eq_false, if_false, not_false_eq_true]
        simpa [cmpLoop_succ] using this
    | a :: as, b :: bs =>
      by_cases hab : a < b
      · have hcs : cmpSegs (a :: as) (b :: bs) = .lt := by simp [cmpSegs, hab]
        rw [hcs]
        have hne : a ≠ b := by omega
        simp only [cmpLoop, List.getD_cons_zero, ne_eq, hne,
          not_false_eq_true, if_pos]
        omega
      · by_cases hba : b < a
        · have hcs : cmpSegs (a :: as) (b :: bs) = .gt := by
            simp [cmpSegs, hab, hba]
          rw [hcs]
          have hne : a ≠ b := by omega
          simp only [cmpLoop, List.getD_cons_zero, ne_eq, hne,
            not_false_eq_true, if_pos]
          omega
        · have heq : a = b := by omega
          subst heq
          have hcs : cmpSegs (a :: as) (a :: bs) = cmpSegs as bs := by
            simp [cmpSegs]
          rw [hcs]
          have := ih as bs (by simpa using Nat.le_of_succ_le_succ hA)
            (by simpa using Nat.le_of_succ_le_succ hB)
          simp only [cmpLoop, List.getD_cons_zero, ne_eq, not_true_eq_false,
            if_false, not_false_eq_true]
          simpa [cmpLoop_succ] using this

theorem compareVersions_cmpSegs (a b : String) :
    (compareVersions a b < 0 ↔ cmpSegs (segments a) (segments b) = .lt) ∧
    (compareVersions a b = 0 ↔ cmpSegs (segments a) (segments b) = .eq) ∧
    (0 < compareVersions a b ↔ cmpSegs (segments a) (segments b) = .gt) := by
  have h := cmpLoop_spec (max (segments a).length (segments b).length)
    (segments a) (segments b) (le_max_left _ _) (le_max_right _ _)
  unfold compareVersions
  rcases hc : cmpSegs (segments a) (segments b) with _ | _ | _ <;>
    rw [hc] at h <;>
    refine ⟨⟨fun hlt => ?_, fun _ => ?_⟩, ⟨fun heq => ?_, fun _ => ?_⟩,
      ⟨fun hgt => ?_, fun _ => ?_⟩⟩ <;>
    simp_all <;> omega

theorem compareVersions_le_iff (a b : String) :
    compareVersions a b ≤ 0 ↔ cmpSegs (segments a) (segments b) ≠ .gt := by
  obtain ⟨h1, h2, h3⟩ := compareVersions_cmpSegs a b
  constructor
  · intro hle hgt
    have := h3.mpr hgt
    omega
  · intro hgt
    rcases hc : cmpSegs (segments a) (segments b) with _ | _ | _
    · have := h1.mpr hc; omega
    · have := h2.mpr hc; omega
    · exact absurd hc hgt

theorem compareVersions_le_total (a b : String) :
    compareVersions a b ≤ 0 ∨ compareVersions b a ≤ 0 := by
  rw [compareVersions_le_iff, compareVersions_le_iff, cmpSegs_swap]
  rcases h : cmpSegs (segments b) (segments a) with _ | _ | _ <;>
    simp [h, Ordering.swap]

theorem compareVersions_le_trans (a b c : String)
    (h1 : compareVersions a b ≤ 0) (h2 : compareVersions b c ≤ 0) :
    compareVersions a c ≤ 0 := by
  rw [compareVersions_le_iff] at h1 h2 ⊢
  exact cmpSegs_le_trans _ _ _ h1 h2

instance : IsTotal Migration migLE :=
  ⟨fun u v => compareVersions_le_total u.meta.version v.meta.version⟩

instance : IsTrans Migration migLE :=
  ⟨fun u v w => compareVersions_le_trans u.meta.version v.meta.version w.meta.version⟩

/-! ### Transaction machinery -/

theorem clientQuery_plain {σ : Type} (db : DBModel σ) (q : String)
    (hq : isControlStmt q = false) (c w : σ) :
    clientQuery db q ⟨c, some w⟩ =
      match db.run q w with
      | some w2 => (⟨c, some w2⟩, true)
      | none => (⟨c, some w⟩, false) := by
  simp only [isControlStmt, Bool.or_eq_false_iff, beq_eq_false_iff_ne, ne_eq] at hq
  obtain ⟨⟨h1, h2⟩, h3⟩ := hq
  simp only [clientQuery, h1, h2, h3, if_false]

theorem execQueries_spec {σ : Type} (db : DBModel σ) (qs : List String)
    (hq : ∀ q ∈ qs, isControlStmt q = false) (c : σ) : ∀ w : σ,
    (∀ t, runAll db qs w = some t →
      execQueries db qs ⟨c, some w⟩ = (⟨c, some t⟩, none)) ∧
    (runAll db qs w = none →
      ∃ e w2, execQueries db qs ⟨c, some w⟩ = (⟨c, some w2⟩, some e) ∧ e ∈ qs) := by
  induction qs with
  | nil =>
    intro w
    constructor
    · intro t ht
      simp only [runAll, Option.some.injEq] at ht
      subst ht
      rfl
    · intro h
      simp [runAll] at h
  | cons q qs ih =>
    intro w
    have hqh : isControlStmt q = false := hq q (by simp)
    have hqt : ∀ x ∈ qs, isControlStmt x = false := fun x hx => hq x (by simp [hx])
    constructor
    · intro t ht
      simp only [runAll] at ht
      cases hrun : db.run q w with
      | none => rw [hrun] at ht; cases ht
      | some w2 =>
        rw [hrun] at ht
        simp only [execQueries, clientQuery_plain db q hqh, hrun]
        exact (ih hqt w2).1 t ht
    · intro h
      simp only [runAll] at h
      cases hrun : db.run q w with
      | none =>
        refine ⟨q, w, ?_, by simp⟩
        simp only [execQueries, clientQuery_plain db q hqh, hrun]
      | some w2 =>
        rw [hrun] at h
        obtain ⟨e, w3, heq, hmem⟩ := (ih hqt w2).2 h
        refine ⟨e, w3, ?_, by simp [hmem]⟩
        simp only [execQueries, clientQuery_plain db q hqh, hrun]
        exact heq

theorem executeBatch_ok {σ : Type} (db : DBModel σ) (queries : List String)
    (s t : σ) (hq : ∀ q ∈ queries, isControlStmt q = false)
    (h : runAll db queries s = some t) :
    executeBatch db queries s = (t, none) := by
  have hb : clientQuery db ("BEGIN") ⟨s, none⟩ = (⟨s, some s⟩, true) := rfl
  have hc : clientQuery db ("COMMIT") (⟨s, some t⟩ : TxnState σ) = (⟨t, none⟩, true) := rfl
  have h2 := (execQueries_spec db queries hq s s).1 t h
  simp only [executeBatch, hb, h2, hc]

theorem executeBatch_fail {σ : Type} (db : DBModel σ) (queries : List String)
    (s : σ) (hq : ∀ q ∈ queries, isControlStmt q = false)
    (h : runAll db queries s = none) :
    ∃ e, executeBatch db queries s = (s, some e) ∧ e ∈ queries := by
  have hb : clientQuery db ("BEGIN") ⟨s, none⟩ = (⟨s, some s⟩, true) := rfl
  obtain ⟨e, w2, heq, hmem⟩ := (execQueries_spec db queries hq s s).2 h
  have hr : clientQuery db ("ROLLBACK") (⟨s, some w2⟩ : TxnState σ) = (⟨s, none⟩, true) := rfl
  refine ⟨e, ?_, hmem⟩
  simp only [executeBatch, hb, heq, hr]

/-! ### Validate and ledger lemmas -/

theorem validate_table_exists {σ : Type} (meta : MigrationMeta) (s : PgState σ)
    (h : s.ledgerExists = true) :
    validate meta noFaults s =
      (s, ((s.ledger.filter fun r => r.id == meta.id).length == 0)) := by
  simp [validate, validateTry, noFaults, h]

theorem validate_table_missing {σ : Type} (meta : MigrationMeta) (s : PgState σ)
    (h : s.ledgerExists = false) :
    validate meta noFaults s = ({ s with ledgerExists := true, ledger := [] }, true) := by
  simp [validate, validateTry, noFaults, h]

theorem validate_state_ledgerExists {σ : Type} (meta : MigrationMeta)
    (s : PgState σ) : ((validate meta noFaults s).1).ledgerExists = true := by
  by_cases h : s.ledgerExists
  · rw [validate_table_exists meta s h]; exact h
  · rw [validate_table_missing meta s (by simpa using h)]

theorem validate_true_iff {σ : Type} (meta : MigrationMeta) (s : PgState σ) :
    (validate meta noFaults s).2 = true ↔
      ∀ row ∈ ((validate meta noFaults s).1).ledger, row.id ≠ meta.id := by
  by_cases h : s.ledgerExists
  · rw [validate_table_exists meta s h]
    simp [List.length_eq_zero, List.filter_eq_nil_iff]
  · rw [validate_table_missing meta s (by simpa using h)]
    simp

/-! ### applyMigrations step equations and invariants -/

theorem applyMigrations_nil {σ : Type} (db : DBModel σ) (hash : String → String)
    (s : PgState σ) : applyMigrations db hash [] s = ⟨s, none, [], []⟩ := rfl

theorem applyMigrations_cons_skip {σ : Type} (db : DBModel σ)
    (hash : String → String) (m : Migration) (rest : List Migration)
    (s s1 : PgState σ) (hv : validate m.meta noFaults s = (s1, false)) :
    applyMigrations db hash (m :: rest) s =
      ⟨(applyMigrations db hash rest s1).state,
       (applyMigrations db hash rest s1).error,
       m.meta.id :: (applyMigrations db hash rest s1).visited,
       (applyMigrations db hash rest s1).applied⟩ := by
  simp only [applyMigrations, hv]

theorem applyMigrations_cons_fail {σ : Type} (db : DBModel σ)
    (hash : String → String) (m : Migration) (rest : List Migration)
    (s s1 : PgState σ) (sch : σ) (e : String)
    (hv : validate m.meta noFaults s = (s1, true))
    (hexec : executeBatch db m.upQueries s1.schema = (sch, some e)) :
    applyMigrations db hash (m :: rest) s =
      ⟨{ s1 with schema := sch }, some e, [m.meta.id], [m.meta.id]⟩ := by
  simp only [applyMigrations, hv, hexec]

theorem applyMigrations_cons_ok {σ : Type} (db : DBModel σ)
    (hash : String → String) (m : Migration) (rest : List Migration)
    (s s1 : PgState σ) (sch : σ)
    (hv : validate m.meta noFaults s = (s1, true))
    (hexec : executeBatch db m.upQueries s1.schema = (sch, none)) :
    applyMigrations db hash (m :: rest) s =
      ⟨(applyMigrations db hash rest
          (recordMigration m (generateChecksum hash m) { s1 with schema := sch })).state,
       (applyMigrations db hash rest
          (recordMigration m (generateChecksum hash m) { s1 with schema := sch })).error,
       m.meta.id :: (applyMigrations db hash rest
          (recordMigration m (generateChecksum hash m) { s1 with schema := sch })).visited,
       m.meta.id :: (applyMigrations db hash rest
          (recordMigration m (generateChecksum hash m) { s1 with schema := sch })).applied⟩ := by
  simp only [applyMigrations, hv, hexec]

theorem recordMigration_ledgerExists {σ : Type} (m : Migration) (c : String)
    (s : PgState σ) : (recordMigration m c s).ledgerExists = s.ledgerExists := rfl

theorem applyMigrations_preserves_ledgerExists {σ : Type} (db : DBModel σ)
    (hash : String → String) : ∀ (migs : List Migration) (s : PgState σ),
    s.ledgerExists = true →
    ((applyMigrations db hash migs s).state).ledgerExists = true := by
  intro migs
  induction migs with
  | nil => intro s h; exact h
  | cons m rest ih =>
    intro s h
    rcases hv : validate m.meta noFaults s with ⟨s1, b⟩
    have hs1 : s1.ledgerExists = true := by
      have := validate_state_ledgerExists (σ := σ) m.meta s
      rw [hv] at this
      exact this
    cases b with
    | false =>
      rw [applyMigrations_cons_skip db hash m rest s s1 hv]
      exact ih s1 hs1
    | true =>
      rcases hexec : executeBatch db m.upQueries s1.schema with ⟨sch, err⟩
      cases err with
      | some e =>
        rw [applyMigrations_cons_fail db hash m rest s s1 sch e hv hexec]
        exact hs1
      | none =>
        rw [applyMigrations_cons_ok db hash m rest s s1 sch hv hexec]
        exact ih _ (by simpa [recordMigration_ledgerExists] using hs1)

theorem recordMigration_mem {σ : Type} (m : Migration) (c : String)
    (s : PgState σ) (row : LedgerRow) (h : row ∈ s.ledger) :
    row ∈ (recordMigration m c s).ledger := by
  simp [recordMigration, h]

theorem recordMigration_self_mem {σ : Type} (m : Migration) (c : String)
    (s : PgState σ) :
    ∃ row ∈ (recordMigration m c s).ledger, row.id = m.meta.id := by
  refine ⟨LedgerRow.mk m.meta.id m.meta.name m.meta.version s.clock c
    m.meta.description m.meta.dependencies, ?_, rfl⟩
  simp [recordMigration]

theorem applyMigrations_ledger_mono {σ : Type} (db : DBModel σ)
    (hash : String → String) : ∀ (migs : List Migration) (s : PgState σ),
    s.ledgerExists = true → ∀ row ∈ s.ledger,
    row ∈ ((applyMigrations db hash migs s).state).ledger := by
  intro migs
  induction migs with
  | nil => intro s _ row hrow; exact hrow
  | cons m rest ih =>
    intro s htab row hrow
    have hveq := validate_table_exists m.meta s htab
    rcases hb : ((s.ledger.filter fun r => r.id == m.meta.id).length == 0) with _ | _
    · rw [hb] at hveq
      rw [applyMigrations_cons_skip db hash m rest s s hveq]
      exact ih s htab row hrow
    · rw [hb] at hveq
      rcases hexec : executeBatch db m.upQueries s.schema with ⟨sch, err⟩
      cases err with
      | some e =>
        rw [applyMigrations_cons_fail db hash m rest s s sch e hveq hexec]
        exact hrow
      | none =>
        rw [applyMigrations_cons_ok db hash m rest s s sch hveq hexec]
        exact ih _ (by simp [recordMigration_ledgerExists, htab])
          row (recordMigration_mem m _ _ row hrow)

theorem applyMigrations_applied_recorded {σ : Type} (db : DBModel σ)
    (hash : String → String) : ∀ (migs : List Migration) (s : PgState σ),
    (applyMigrations db hash migs s).error = none →
    ∀ idv ∈ (applyMigrations db hash migs s).applied,
    idv ∈ ((applyMigrations db hash migs s).state).ledger.map LedgerRow.id := by
  intro migs
  induction migs with
  | nil => intro s _ idv hidv; simp [applyMigrations_nil] at hidv
  | cons m rest ih =>
    intro s herr idv hidv
    rcases hv : validate m.meta noFaults s with ⟨s1, b⟩
    have hs1 : s1.ledgerExists = true := by
      have := validate_state_ledgerExists (σ := σ) m.meta s
      rw [hv] at this
      exact this
    cases b with
    | false =>
      rw [applyMigrations_cons_skip db hash m rest s s1 hv] at herr hidv ⊢
      exact ih s1 herr idv hidv
    | true =>
      rcases hexec : executeBatch db m.upQueries s1.schema with ⟨sch, err⟩
      cases err with
      | some e =>
        rw [applyMigrations_cons_fail db hash m rest s s1 sch e hv hexec] at herr
        cases herr
      | none =>
        rw [applyMigrations_cons_ok db hash m rest s s1 sch hv hexec] at herr hidv ⊢
        rcases List.mem_cons.mp hidv with hidv | hidv
        · subst hidv
          obtain ⟨row, hrowmem, hrowid⟩ :=
            recordMigration_self_mem (σ := σ) m (generateChecksum hash m)
              { s1 with schema := sch }
          have hrow2 := applyMigrations_ledger_mono db hash rest _
            (by simp [recordMigration_ledgerExists, hs1]) row hrowmem
          exact List.mem_map.mpr ⟨row, hrow2, hrowid⟩
        · exact ih _ herr idv hidv

theorem applyMigrations_all_recorded {σ : Type} (db : DBModel σ)
    (hash : String → String) : ∀ (migs : List Migration) (s : PgState σ),
    (applyMigrations db hash migs s).error = none →
    ∀ mm ∈ migs,
    mm.meta.id ∈ ((applyMigrations db hash migs s).state).ledger.map LedgerRow.id := by
  intro migs
  induction migs with
  | nil => intro s _ mm hmm; cases hmm
  | cons m rest ih =>
    intro s herr mm hmm
    rcases hv : validate m.meta noFaults s with ⟨s1, b⟩
    have hs1 : s1.ledgerExists = true := by
      have := validate_state_ledgerExists (σ := σ) m.meta s
      rw [hv] at this
      exact this
    cases b with
    | false =>
      rw [applyMigrations_cons_skip db hash m rest s s1 hv] at herr ⊢
      rcases List.mem_cons.mp hmm with hmm | hmm
      · subst hmm
        by_cases htab : s.ledgerExists
        · have hveq := validate_table_exists mm.meta s htab
          rw [hveq] at hv
          injection hv with hseq hfil
          subst hseq
          have hne : (s.ledger.filter fun r => r.id == mm.meta.id) ≠ [] := by
            intro hnil
            rw [hnil] at hfil
            simp at hfil
          obtain ⟨row, hrowmem⟩ := List.exists_mem_of_ne_nil _ hne
          have hrow := List.mem_filter.mp hrowmem
          have hrow2 := applyMigrations_ledger_mono db hash rest s htab row hrow.1
          exact List.mem_map.mpr ⟨row, hrow2, by simpa using hrow.2⟩
        · have hveq := validate_table_missing mm.meta s (by simpa using htab)
          rw [hveq] at hv
          cases hv
      · exact ih s1 herr mm hmm
    | true =>
      rcases hexec : executeBatch db m.upQueries s1.schema with ⟨sch, err⟩
      cases err with
      | some e =>
        rw [applyMigrations_cons_fail db hash m rest s s1 sch e hv hexec] at herr
        cases herr
      | none =>
        rw [applyMigrations_cons_ok db hash m rest s s1 sch hv hexec] at herr ⊢
        rcases List.mem_cons.mp hmm with hmm | hmm
        · subst hmm
          obtain ⟨row, hrowmem, hrowid⟩ :=
            recordMigration_self_mem (σ := σ) mm (generateChecksum hash mm)
              { s1 with schema := sch }
          have hrow2 := applyMigrations_ledger_mono db hash rest _
            (by simp [recordMigration_ledgerExists, hs1]) row hrowmem
          exact List.mem_map.mpr ⟨row, hrow2, hrowid⟩
        · exact ih _ herr mm hmm

theorem applyMigrations_all_present_noop {σ : Type} (db : DBModel σ)
    (hash : String → String) : ∀ (migs : List Migration) (s : PgState σ),
    s.ledgerExists = true →
    (∀ mm ∈ migs, mm.meta.id ∈ s.ledger.map LedgerRow.id) →
    applyMigrations db hash migs s = ⟨s, none, migs.map fun mm => mm.meta.id, []⟩ := by
  intro migs
  induction migs with
  | nil => intro s _ _; rfl
  | cons m rest ih =>
    intro s htab hids
    have hveq := validate_table_exists m.meta s htab
    have hmem : m.meta.id ∈ s.ledger.map LedgerRow.id := hids m (by simp)
    obtain ⟨row, hrowmem, hrowid⟩ := List.mem_map.mp hmem
    have hne : (s.ledger.filter fun r => r.id == m.meta.id) ≠ [] := by
      intro hnil
      have : row ∈ s.ledger.filter fun r => r.id == m.meta.id :=
        List.mem_filter.mpr ⟨hrowmem, by simp [hrowid]⟩
      rw [hnil] at this
      cases this
    have hfalse : ((s.ledger.filter fun r => r.id == m.meta.id).length == 0) = false := by
      rcases h : (s.ledger.filter fun r => r.id == m.meta.id) with _ | ⟨x, xs⟩
      · exact absurd h hne
      · simp [h]
    rw [hfalse] at hveq
    rw [applyMigrations_cons_skip db hash m rest s s hveq]
    rw [ih s htab fun mm hmm => hids mm (by simp [hmm])]
    simp

theorem applyMigrations_visited_of_ok {σ : Type} (db : DBModel σ)
    (hash : String → String) : ∀ (migs : List Migration) (s : PgState σ),
    (applyMigrations db hash migs s).error = none →
    (applyMigrations db hash migs s).visited = migs.map fun mm => mm.meta.id := by
  intro migs
  induction migs with
  | nil => intro s _; rfl
  | cons m rest ih =>
    intro s herr
    rcases hv : validate m.meta noFaults s with ⟨s1, b⟩
    cases b with
    | false =>
      rw [applyMigrations_cons_skip db hash m rest s s1 hv] at herr ⊢
      simp [ih s1 herr]
    | true =>
      rcases hexec : executeBatch db m.upQueries s1.schema with ⟨sch, err⟩
      cases err with
      | some e =>
        rw [applyMigrations_cons_fail db hash m rest s s1 sch e hv hexec] at herr
        cases herr
      | none =>
        rw [applyMigrations_cons_ok db hash m rest s s1 sch hv hexec] at herr ⊢
        simp [ih _ herr]

theorem applyMigrations_append {σ : Type} (db : DBModel σ)
    (hash : String → String) : ∀ (l1 l2 : List Migration) (s : PgState σ),
    (applyMigrations db hash l1 s).error = none →
    applyMigrations db hash (l1 ++ l2) s =
      ⟨(applyMigrations db hash l2 ((applyMigrations db hash l1 s).state)).state,
       (applyMigrations db hash l2 ((applyMigrations db hash l1 s).state)).error,
       (applyMigrations db hash l1 s).visited ++
         (applyMigrations db hash l2 ((applyMigrations db hash l1 s).state)).visited,
       (applyMigrations db hash l1 s).applied ++
         (applyMigrations db hash l2 ((applyMigrations db hash l1 s).state)).applied⟩ := by
  intro l1
  induction l1 with
  | nil => intro l2 s _; simp [applyMigrations_nil]
  | cons m l1 ih =>
    intro l2 s herr
    rcases hv : validate m.meta noFaults s with ⟨s1, b⟩
    cases b with
    | false =>
      rw [applyMigrations_cons_skip db hash m l1 s s1 hv] at herr
      have herr2 : (applyMigrations db hash l1 s1).error = none := by
        simpa using herr
      have hstep := applyMigrations_cons_skip db hash m (l1 ++ l2) s s1 hv
      rw [List.cons_append, hstep, ih l2 s1 herr2,
        applyMigrations_cons_skip db hash m l1 s s1 hv]
      simp
    | true =>
      rcases hexec : executeBatch db m.upQueries s1.schema with ⟨sch, err⟩
      cases err with
      | some e =>
        rw [applyMigrations_cons_fail db hash m l1 s s1 sch e hv hexec] at herr
        cases herr
      | none =>
        rw [applyMigrations_cons_ok db hash m l1 s s1 sch hv hexec] at herr
        have herr2 : (applyMigrations db hash l1
            (recordMigration m (generateChecksum hash m)
              { s1 with schema := sch })).error = none := by
          simpa using herr
        have hstep := applyMigrations_cons_ok db hash m (l1 ++ l2) s s1 sch hv hexec
        rw [List.cons_append, hstep, ih l2 _ herr2,
          applyMigrations_cons_ok db hash m l1 s s1 sch hv hexec]
        simp

/-! ### Rollback support: deleting exactly one row -/

theorem ledger_filter_length (a : String) : ∀ l : List LedgerRow,
    (l.map LedgerRow.id).Nodup → a ∈ l.map LedgerRow.id →
    ((l.filter fun r => !(r.id == a)).length) + 1 = l.length := by
  intro l
  induction l with
  | nil => intro _ hmem; cases hmem
  | cons x xs ih =>
    intro hnodup hmem
    rw [List.map_cons, List.nodup_cons] at hnodup
    by_cases hxa : x.id = a
    · have hkeep : xs.filter (fun r => !(r.id == a)) = xs := by
        rw [List.filter_eq_self]
        intro r hr
        have hne : r.id ≠ a := fun hra =>
          hnodup.1 (List.mem_map.mpr ⟨r, hr, by rw [hra, ← hxa]⟩)
        simp [hne]
      simp [List.filter_cons, hxa, hkeep]
    · have hmem2 : a ∈ xs.map LedgerRow.id := by
        rcases List.mem_map.mp hmem with ⟨r, hr, hra⟩
        rcases List.mem_cons.mp hr with hrx | hrxs
        · exact absurd (hrx ▸ hra) hxa
        · exact List.mem_map.mpr ⟨r, hrxs, hra⟩
      have := ih hnodup.2 hmem2
      simp only [List.filter_cons, hxa]
      simp only [beq_eq_false_iff_ne, ne_eq, hxa, not_false_eq_true,
        Bool.not_eq_true']
      simp [List.length_cons]
      omega

/-! ### JSON escaping roundtrip -/

theorem hexVal_hexDig : ∀ n < 16, hexVal (hexDig n) = n := by decide

theorem unescape_nil : unescape [] = some [] := by
  simp [unescape]

theorem unescape_cons_plain (c : Char) (rest : List Char)
    (h : c ≠ Char.ofNat 92) :
    unescape (c :: rest) = (unescape rest).map fun l => c :: l := by
  rw [unescape.eq_def]
  simp only []
  rw [if_pos h]

theorem unescape_escape (c : Char) (tail : List Char) :
    unescape (jsonEscapeChar c ++ tail) = (unescape tail).map fun l => c :: l := by
  by_cases h34 : c = Char.ofNat 34
  · subst h34; simp [jsonEscapeChar, unescape, unescCode]
  by_cases h92 : c = Char.ofNat 92
  · subst h92; simp [jsonEscapeChar, unescape, unescCode]
  by_cases h8 : c = Char.ofNat 8
  · subst h8; simp [jsonEscapeChar, unescape, unescCode]
  by_cases h9 : c = Char.ofNat 9
  · subst h9; simp [jsonEscapeChar, unescape, unescCode]
  by_cases h10 : c = Char.ofNat 10
  · subst h10; simp [jsonEscapeChar, unescape, unescCode]
  by_cases h12 : c = Char.ofNat 12
  · subst h12; simp [jsonEscapeChar, unescape, unescCode]
  by_cases h13 : c = Char.ofNat 13
  · subst h13; simp [jsonEscapeChar, unescape, unescCode]
  by_cases hctl : c.toNat < 32
  · have hesc : jsonEscapeChar c =
        [Char.ofNat 92, 'u', '0', '0', hexDig (c.toNat / 16), hexDig (c.toNat % 16)] := by
      simp [jsonEscapeChar, h34, h92, h8, h9, h10, h12, h13, hctl]
    rw [hesc]
    have hdiv : c.toNat / 16 < 16 := by omega
    have hmod : c.toNat % 16 < 16 := by omega
    have hv1 := hexVal_hexDig (c.toNat / 16) hdiv
    have hv2 := hexVal_hexDig (c.toNat % 16) hmod
    simp only [List.cons_append, List.nil_append, unescape]
    simp [hv1, hv2, Nat.div_add_mod, Char.ofNat_toNat]
  · have hesc : jsonEscapeChar c = [c] := by
      simp [jsonEscapeChar, h34, h92, h8, h9, h10, h12, h13, hctl]
    rw [hesc]
    simp [unescape_cons_plain c tail h92]

theorem unescape_escapeList (l : List Char) :
    unescape (escapeList l) = some l := by
  induction l with
  | nil => simp [escapeList, unescape_nil]
  | cons c cs ih => simp [escapeList, unescape_escape, ih]

theorem escapeList_inj (l1 l2 : List Char) (h : escapeList l1 = escapeList l2) :
    l1 = l2 := by
  have h1 := unescape_escapeList l1
  rw [h, unescape_escapeList l2] at h1
  exact (Option.some.inj h1).symm

theorem migrationContent_inj_desc (m1 m2 : MigrationMeta)
    (hid : m1.id = m2.id) (hname : m1.name = m2.name)
    (hver : m1.version = m2.version)
    (h : migrationContent m1 = migrationContent m2) :
    m1.description = m2.description := by
  unfold migrationContent jsonMember jsonStringChars at h
  rw [hid, hname, hver] at h
  injection h with h
  simp only [List.append_assoc, List.cons_append, List.nil_append,
    List.cons.injEq, true_and, List.append_cancel_left_eq] at h
  have h2 : escapeList m1.description.data = escapeList m2.description.data := by
    have := List.append_cancel_right h
    exact this
  exact String.ext (escapeList_inj _ _ h2)

theorem applyMigrations_ne_nil_ledgerExists {σ : Type} (db : DBModel σ)
    (hash : String → String) (migs : List Migration) (s : PgState σ)
    (h : migs ≠ []) :
    ((applyMigrations db hash migs s).state).ledgerExists = true := by
  match migs with
  | [] => exact absurd rfl h
  | m :: rest =>
    rcases hv : validate m.meta noFaults s with ⟨s1, b⟩
    have hs1 : s1.ledgerExists = true := by
      have := validate_state_ledgerExists (σ := σ) m.meta s
      rw [hv] at this
      exact this
    cases b with
    | false =>
      rw [applyMigrations_cons_skip db hash m rest s s1 hv]
      exact applyMigrations_preserves_ledgerExists db hash rest s1 hs1
    | true =>
      rcases hexec : executeBatch db m.upQueries s1.schema with ⟨sch, err⟩
      cases err with
      | some e =>
        rw [applyMigrations_cons_fail db hash m rest s s1 sch e hv hexec]
        exact hs1
      | none =>
        rw [applyMigrations_cons_ok db hash m rest s s1 sch hv hexec]
        exact applyMigrations_preserves_ledgerExists db hash rest _
          (by simp [recordMigration_ledgerExists, hs1])

/-! ### Claim theorems -/

/-- Claim C1: for every set of discovered migration units with distinct
version strings, loadMigrations leaves the in-memory unit list sorted
non-decreasing by the dotted-version comparator regardless of the order in
which the directory listing returned the files, and a (successful)
applyMigrations run visits the units in exactly that sorted order. -/
theorem loadMigrations_sorted_apply_order {σ : Type} (db : DBModel σ)
    (hash : String → String) (files : List (String × Migration)) (s : PgState σ)
    (hdistinct : (files.map fun f => f.2.meta.version).Nodup)
    (hok : (applyMigrations db hash (loadMigrations files) s).error = none) :
    List.Sorted migLE (loadMigrations files) ∧
    (applyMigrations db hash (loadMigrations files) s).visited =
      (loadMigrations files).map fun m => m.meta.id :=
  ⟨List.sorted_insertionSort migLE _,
   applyMigrations_visited_of_ok db hash _ s hok⟩

/-- Witness for C1 at a concrete listing given out of version order. -/
theorem loadMigrations_sorted_apply_order_witness :
    List.Sorted migLE (loadMigrations files0) ∧
    (applyMigrations db0 hashId (loadMigrations files0) s0).visited =
      (loadMigrations files0).map fun m => m.meta.id :=
  loadMigrations_sorted_apply_order db0 hashId files0 s0 (by decide) (by decide)

/-- Claim C2: the version comparator splits on dots, parses segments as
integers with absent segments reading 0, and decides by the first unequal
segment; in particular 1.0 equals 1.0.0, 2.0 exceeds 1.9.9, and 0.9 is
below 0.10. -/
theorem compareVersions_spec :
    (∀ a b : String, numericVersion a = true → numericVersion b = true →
      ((compareVersions a b < 0 ↔ cmpSegs (segments a) (segments b) = .lt) ∧
       (compareVersions a b = 0 ↔ cmpSegs (segments a) (segments b) = .eq) ∧
       (0 < compareVersions a b ↔ cmpSegs (segments a) (segments b) = .gt))) ∧
    compareVersions ("1.0") ("1.0.0") = 0 ∧
    0 < compareVersions ("2.0") ("1.9.9") ∧
    compareVersions ("0.9") ("0.10") < 0 :=
  ⟨fun a b _ _ => compareVersions_cmpSegs a b, by decide, by decide, by decide⟩

/-- Witness for C2 at two concrete numeric version strings. -/
theorem compareVersions_spec_witness :
    (compareVersions ("1.2.3") ("1.10") < 0 ↔
      cmpSegs (segments ("1.2.3")) (segments ("1.10")) = .lt) ∧
    (compareVersions ("1.2.3") ("1.10") = 0 ↔
      cmpSegs (segments ("1.2.3")) (segments ("1.10")) = .eq) ∧
    (0 < compareVersions ("1.2.3") ("1.10") ↔
      cmpSegs (segments ("1.2.3")) (segments ("1.10")) = .gt) :=
  compareVersions_spec.1 ("1.2.3") ("1.10") (by decide) (by decide)

/-- Claim C3: executeBatch runs a statement sequence as one all-or-nothing
transaction: when every statement succeeds the sequential result is
committed; when any statement fails the committed schema state is exactly
the state from before the batch and the error (the failing statement) is
re-raised. -/
theorem executeBatch_atomic {σ : Type} (db : DBModel σ) (queries : List String)
    (s : σ) (hq : ∀ q ∈ queries, isControlStmt q = false) :
    (∀ t, runAll db queries s = some t → executeBatch db queries s = (t, none)) ∧
    (runAll db queries s = none →
      ∃ e, executeBatch db queries s = (s, some e) ∧ e ∈ queries) :=
  ⟨fun t ht => executeBatch_ok db queries s t hq ht,
   fun h => executeBatch_fail db queries s hq h⟩

/-- Witness for C3: a succeeding batch commits the sequential result, and
a batch with a failing statement leaves the schema state unchanged. -/
theorem executeBatch_atomic_witness :
    executeBatch db0 (["s1", "s2"]) (0 : Nat) = (2, none) ∧
    (executeBatch db0 (["s1", "boom", "s3"]) (0 : Nat)).1 = 0 := by
  constructor
  · exact (executeBatch_atomic db0 (["s1", "s2"]) 0 (by decide)).1 2 (by rfl)
  · obtain ⟨e, he, _⟩ :=
      (executeBatch_atomic db0 (["s1", "boom", "s3"]) 0 (by decide)).2 (by rfl)
    rw [he]

/-- Claim C4: if unit N's up batch fails during applyMigrations after the
preceding units ran without error, the earlier applied units keep their
ledger entries, no ledger entry is written for unit N, no later unit is
attempted (the visit log stops at N), the schema is left as it was before
N's batch, and the error raised by N's failing statement propagates. -/
theorem applyMigrations_partial_failure {σ : Type} (db : DBModel σ)
    (hash : String → String) (pre : List Migration) (m : Migration)
    (post : List Migration) (s s1 : PgState σ)
    (hpre : (applyMigrations db hash pre s).error = none)
    (hv : validate m.meta noFaults ((applyMigrations db hash pre s).state) = (s1, true))
    (hq : ∀ q ∈ m.upQueries, isControlStmt q = false)
    (hfail : runAll db m.upQueries s1.schema = none) :
    ∃ e, applyMigrations db hash (pre ++ m :: post) s =
        ⟨s1, some e,
         (applyMigrations db hash pre s).visited ++ [m.meta.id],
         (applyMigrations db hash pre s).applied ++ [m.meta.id]⟩ ∧
      e ∈ m.upQueries ∧
      m.meta.id ∉ s1.ledger.map LedgerRow.id ∧
      ∀ idv ∈ (applyMigrations db hash pre s).applied,
        idv ∈ s1.ledger.map LedgerRow.id := by
  obtain ⟨e, hexec, hmem⟩ := executeBatch_fail db m.upQueries s1.schema hq hfail
  have hvTrue : (validate m.meta noFaults
      ((applyMigrations db hash pre s).state)).2 = true := by rw [hv]
  have hvState : (validate m.meta noFaults
      ((applyMigrations db hash pre s).state)).1 = s1 := by rw [hv]
  refine ⟨e, ?_, hmem, ?_, ?_⟩
  · rw [applyMigrations_append db hash pre (m :: post) s hpre]
    rw [applyMigrations_cons_fail db hash m post _ s1 s1.schema e hv hexec]
  · intro hin
    have h2 := (validate_true_iff m.meta ((applyMigrations db hash pre s).state)).mp hvTrue
    rw [hvState] at h2
    obtain ⟨row, hrow, hrid⟩ := List.mem_map.mp hin
    exact h2 row hrow hrid
  · intro idv hidv
    have h3 := applyMigrations_applied_recorded db hash pre s hpre idv hidv
    by_cases hnil : pre = []
    · subst hnil
      simp [applyMigrations_nil] at hidv
    · have htab : ((applyMigrations db hash pre s).state).ledgerExists = true :=
        applyMigrations_ne_nil_ledgerExists db hash pre s hnil
      have hveq := validate_table_exists m.meta
        ((applyMigrations db hash pre s).state) htab
      rw [hveq] at hv
      injection hv with h4 h5
      rw [← h4]
      exact h3

/-- Witness for C4: A applies and stays recorded, B's failing batch leaves
no ledger row for B, and C is never visited. -/
theorem applyMigrations_partial_failure_witness :
    (applyMigrations db0 hashId ([migA] ++ migB :: [migC]) s0).error.isSome = true ∧
    (applyMigrations db0 hashId ([migA] ++ migB :: [migC]) s0).visited =
      ["001_a", "002_b"] ∧
    ("002_b" : String) ∉
      ((applyMigrations db0 hashId ([migA] ++ migB :: [migC]) s0).state).ledger.map
        LedgerRow.id ∧
    ("001_a" : String) ∈
      ((applyMigrations db0 hashId ([migA] ++ migB :: [migC]) s0).state).ledger.map
        LedgerRow.id := by
  obtain ⟨e, heq, hmem, hnot, hrec⟩ :=
    applyMigrations_partial_failure db0 hashId [migA] migB [migC] s0
      ((validate migB.meta noFaults
        ((applyMigrations db0 hashId [migA] s0).state)).1)
      (by decide) (by decide) (by decide) (by decide)
  refine ⟨?_, ?_, ?_, ?_⟩
  · rw [heq]; rfl
  · rw [heq]
    show (applyMigrations db0 hashId [migA] s0).visited ++ [migB.meta.id] =
      ["001_a", "002_b"]
    decide
  · rw [heq]
    show ("002_b" : String) ∉
      ((validate migB.meta noFaults
        ((applyMigrations db0 hashId [migA] s0).state)).1).ledger.map LedgerRow.id
    simpa using hnot
  · rw [heq]
    show ("001_a" : String) ∈
      ((validate migB.meta noFaults
        ((applyMigrations db0 hashId [migA] s0).state)).1).ledger.map LedgerRow.id
    simpa using hrec ("001_a") (by decide)

/-- Claim C5: validate never throws: under any injected ledger-query fault
on its executed path it returns false; with no fault it leaves the state
unchanged when the ledger table exists, creates exactly the empty ledger
table when it is missing, and answers true precisely when no ledger row
carries the unit's id. -/
theorem validate_fails_closed_and_checks_ledger {σ : Type}
    (meta : MigrationMeta) (s : PgState σ) :
    (∀ e : ValidateFaults,
      (e.tableCheck = true ∨ (s.ledgerExists = false ∧ e.createTable = true) ∨
        e.selectId = true) →
      (validate meta e s).2 = false) ∧
    (s.ledgerExists = true → (validate meta noFaults s).1 = s) ∧
    (s.ledgerExists = false →
      (validate meta noFaults s).1 = { s with ledgerExists := true, ledger := [] }) ∧
    ((validate meta noFaults s).2 = true ↔
      ∀ row ∈ ((validate meta noFaults s).1).ledger, row.id ≠ meta.id) := by
  refine ⟨?_, ?_, ?_, validate_true_iff meta s⟩
  · rintro ⟨et, ec, es⟩ hfault
    rcases hfault with h | ⟨h1, h2⟩ | h
    · simp only at h
      subst h
      simp [validate, validateTry]
    · simp only at h1 h2
      subst h2
      by_cases ht : et = true
      · subst ht; simp [validate, validateTry]
      · have ht2 : et = false := by simpa using ht
        subst ht2
        simp [validate, validateTry, h1]
    · simp only at h
      subst h
      by_cases ht : et = true
      · subst ht; simp [validate, validateTry]
      · have ht2 : et = false := by simpa using ht
        subst ht2
        by_cases hl : s.ledgerExists
        · simp [validate, validateTry, hl]
        · by_cases hc : ec = true
          · subst hc; simp [validate, validateTry, hl]
          · have hc2 : ec = false := by simpa using hc
            subst hc2
            simp [validate, validateTry, hl]
  · intro h
    rw [validate_table_exists meta s h]
  · intro h
    rw [validate_table_missing meta s h]

/-- Witness for C5: a fault makes validate answer false; with the table
present and no fault the state is untouched; the answer tracks ledger
membership. -/
theorem validate_fails_closed_and_checks_ledger_witness :
    (validate migA.meta ⟨true, false, false⟩ sLedger2).2 = false ∧
    (validate migA.meta noFaults sLedger2).1 = sLedger2 ∧
    ((validate migA.meta noFaults sLedger2).2 = true ↔
      ∀ row ∈ ((validate migA.meta noFaults sLedger2).1).ledger,
        row.id ≠ migA.meta.id) := by
  have h := validate_fails_closed_and_checks_ledger migA.meta sLedger2
  exact ⟨h.1 ⟨true, false, false⟩ (Or.inl rfl), h.2.1 rfl, h.2.2.2⟩

/-- Claim C6: after a fully successful applyMigrations, running it again
on the resulting state performs zero up invocations (empty applied log),
adds no ledger rows (the state is returned unchanged), and reports no
error: every unit's validate finds its ledger row and returns false. -/
theorem applyMigrations_idempotent {σ : Type} (db : DBModel σ)
    (hash : String → String) (migs : List Migration) (s : PgState σ)
    (h : (applyMigrations db hash migs s).error = none) :
    applyMigrations db hash migs ((applyMigrations db hash migs s).state) =
      ⟨(applyMigrations db hash migs s).state, none,
       migs.map fun mm => mm.meta.id, []⟩ := by
  match migs with
  | [] => rfl
  | m :: rest =>
    have htab := applyMigrations_ne_nil_ledgerExists db hash (m :: rest) s
      (by simp)
    have hids := applyMigrations_all_recorded db hash (m :: rest) s h
    exact applyMigrations_all_present_noop db hash (m :: rest) _ htab hids

/-- Witness for C6 at a concrete successful two-unit run. -/
theorem applyMigrations_idempotent_witness :
    applyMigrations db0 hashId [migA, migC]
        ((applyMigrations db0 hashId [migA, migC] s0).state) =
      ⟨(applyMigrations db0 hashId [migA, migC] s0).state, none,
       [migA, migC].map fun mm => mm.meta.id, []⟩ :=
  applyMigrations_idempotent db0 hashId [migA, migC] s0 (by decide)

/-- Claim C7: the checksum is pure and deterministic: equal identity
fields give equal checksums (whatever the hash); and when the hash is
injective (the collision-freeness contract of the cryptographic hash), a
change in the description alone, even by whitespace, changes the checksum. -/
theorem generateChecksum_pure_and_sensitive :
    (∀ (hash : String → String) (m1 m2 : Migration),
      m1.meta.id = m2.meta.id → m1.meta.name = m2.meta.name →
      m1.meta.version = m2.meta.version → m1.meta.description = m2.meta.description →
      generateChecksum hash m1 = generateChecksum hash m2) ∧
    (∀ hash : String → String, Function.Injective hash →
      ∀ m1 m2 : Migration,
      m1.meta.id = m2.meta.id → m1.meta.name = m2.meta.name →
      m1.meta.version = m2.meta.version → m1.meta.description ≠ m2.meta.description →
      generateChecksum hash m1 ≠ generateChecksum hash m2) := by
  constructor
  · intro hash m1 m2 hid hname hver hdesc
    have hcontent : migrationContent m1.meta = migrationContent m2.meta := by
      unfold migrationContent jsonMember jsonStringChars
      rw [hid, hname, hver, hdesc]
    exact congrArg hash hcontent
  · intro hash hinj m1 m2 hid hname hver hdesc hcontra
    exact hdesc (migrationContent_inj_desc m1.meta m2.meta hid hname hver
      (hinj hcontra))

/-- Witness for C7: equal identity fields (differing dependencies) give
the same checksum; a whitespace-only description change gives another. -/
theorem generateChecksum_pure_and_sensitive_witness :
    generateChecksum hashId migA = generateChecksum hashId migA2 ∧
    generateChecksum hashId migA ≠ generateChecksum hashId migAws := by
  constructor
  · exact generateChecksum_pure_and_sensitive.1 hashId migA migA2 rfl rfl rfl rfl
  · exact generateChecksum_pure_and_sensitive.2 hashId (fun a b hab => hab)
      migA migAws rfl rfl rfl (by decide)

/-- Claim C8: when the version matches a loaded unit, its ledger entry is
present (ids unique, as the primary key guarantees), and the down batch
succeeds, rollbackMigration deletes exactly the ledger row with that
unit's id: a row survives iff it was there before and has a different id,
and the ledger shrinks by exactly one row. -/
theorem rollbackMigration_removes_exactly {σ : Type} (db : DBModel σ)
    (migs : List Migration) (version : String) (s : PgState σ) (m : Migration)
    (hfind : migs.find? (fun u => u.meta.version == version) = some m)
    (hq : ∀ q ∈ m.downQueries, isControlStmt q = false)
    (t : σ) (hdown : runAll db m.downQueries s.schema = some t)
    (hnodup : (s.ledger.map LedgerRow.id).Nodup)
    (hpresent : m.meta.id ∈ s.ledger.map LedgerRow.id) :
    (rollbackMigration db migs version s).error = none ∧
    (∀ row, row ∈ ((rollbackMigration db migs version s).state).ledger ↔
      (row ∈ s.ledger ∧ row.id ≠ m.meta.id)) ∧
    ((rollbackMigration db migs version s).state).ledger.length + 1 =
      s.ledger.length := by
  have hexec := executeBatch_ok db m.downQueries s.schema t hq hdown
  have heq : rollbackMigration db migs version s =
      ⟨removeMigrationRecord m { s with schema := t }, none,
       [.downExec m.downQueries, .deleteRecord m.meta.id]⟩ := by
    simp only [rollbackMigration, hfind, hexec]
  rw [heq]
  refine ⟨rfl, ?_, ?_⟩
  · intro row
    simp [removeMigrationRecord, List.mem_filter]
  · simpa [removeMigrationRecord] using
      ledger_filter_length m.meta.id s.ledger hnodup hpresent

/-- Witness for C8: rolling back A from a two-row ledger keeps exactly C's
row. -/
theorem rollbackMigration_removes_exactly_witness :
    (rollbackMigration db0 [migA, migC] ("1.0.0") sLedger2).error = none ∧
    (rowA ∈ ((rollbackMigration db0 [migA, migC] ("1.0.0") sLedger2).state).ledger ↔
      (rowA ∈ sLedger2.ledger ∧ rowA.id ≠ migA.meta.id)) ∧
    ((rollbackMigration db0 [migA, migC] ("1.0.0") sLedger2).state).ledger.length + 1 =
      sLedger2.ledger.length := by
  have h := rollbackMigration_removes_exactly db0 [migA, migC] ("1.0.0")
    sLedger2 migA (by decide) (by decide) 2 (by decide) (by decide) (by decide)
  exact ⟨h.1, h.2.1 rowA, h.2.2⟩

/-- Claim C9: when no loaded unit's version matches, rollbackMigration
fails immediately with a descriptive not-found error, performs no database
interaction, and leaves the state untouched. -/
theorem rollbackMigration_not_found_spec {σ : Type} (db : DBModel σ)
    (migs : List Migration) (version : String) (s : PgState σ)
    (h : ∀ m ∈ migs, m.meta.version ≠ version) :
    rollbackMigration db migs version s =
      ⟨s, some ("Migration version " ++ version ++ " not found"), []⟩ := by
  have hfind : migs.find? (fun m => m.meta.version == version) = none := by
    rw [List.find?_eq_none]
    intro m hm
    simpa using h m hm
  simp only [rollbackMigration, hfind]

/-- Witness for C9 at a version matching no unit. -/
theorem rollbackMigration_not_found_spec_witness :
    rollbackMigration db0 [migA, migC] ("9.9.9") sLedger2 =
      ⟨sLedger2, some ("Migration version " ++ "9.9.9" ++ " not found"), []⟩ :=
  rollbackMigration_not_found_spec db0 [migA, migC] ("9.9.9") sLedger2
    (by decide)

/-- Claim C10: rollbackMigration never consults the ledger before
reversing: for a unit whose version matches, even when no ledger row with
its id exists, the down batch is executed and the ledger delete is issued
(the delete then being a no-op), with no error. -/
theorem rollbackMigration_skips_ledger_check {σ : Type} (db : DBModel σ)
    (migs : List Migration) (version : String) (s : PgState σ) (m : Migration)
    (hfind : migs.find? (fun u => u.meta.version == version) = some m)
    (habsent : ∀ row ∈ s.ledger, row.id ≠ m.meta.id)
    (hq : ∀ q ∈ m.downQueries, isControlStmt q = false)
    (t : σ) (hdown : runAll db m.downQueries s.schema = some t) :
    (rollbackMigration db migs version s).events =
      [DbEvent.downExec m.downQueries, DbEvent.deleteRecord m.meta.id] ∧
    (rollbackMigration db migs version s).error = none ∧
    ((rollbackMigration db migs version s).state).ledger = s.ledger ∧
    ((rollbackMigration db migs version s).state).schema = t := by
  have hexec := executeBatch_ok db m.downQueries s.schema t hq hdown
  have heq : rollbackMigration db migs version s =
      ⟨removeMigrationRecord m { s with schema := t }, none,
       [.downExec m.downQueries, .deleteRecord m.meta.id]⟩ := by
    simp only [rollbackMigration, hfind, hexec]
  rw [heq]
  refine ⟨rfl, rfl, ?_, rfl⟩
  simp only [removeMigrationRecord]
  rw [List.filter_eq_self]
  intro row hrow
  simp [habsent row hrow]

/-- Witness for C10: rolling back A against an empty ledger still runs the
down batch and issues the delete. -/
theorem rollbackMigration_skips_ledger_check_witness :
    (rollbackMigration db0 [migA, migC] ("1.0.0") sTable).events =
      [DbEvent.downExec migA.downQueries, DbEvent.deleteRecord migA.meta.id] ∧
    (rollbackMigration db0 [migA, migC] ("1.0.0") sTable).error = none ∧
    ((rollbackMigration db0 [migA, migC] ("1.0.0") sTable).state).ledger =
      sTable.ledger ∧
    ((rollbackMigration db0 [migA, migC] ("1.0.0") sTable).state).schema = 1 :=
  rollbackMigration_skips_ledger_check db0 [migA, migC] ("1.0.0") sTable migA
    (by decide) (by decide) (by decide) 1 (by decide)
